import Mathlib

/-!
# Verification of the cryptlib ECC stack

Shallow embedding of `cryptlib` (prime-field arithmetic, curve points,
RFC6979 deterministic nonces, ECDSA sign/verify, ECDH) together with proofs
about the embedded functions.

Conventions of the embedding:
* Python `int` values are embedded as `Int` (scalars used as loop counters as
  `Nat`; all call sites pass non-negative values there).
* Python `%` on a positive modulus is `Int.emod` (both give the result in
  `[0, m)`), and Python `//` on non-negative operands is `Nat`/`Int` division.
* A Python function that can raise becomes `Option`-valued: `none` models an
  uncaught exception.
* Unbounded `while` loops become fuel-indexed recursion; the fuel passed by the
  wrapper is an upper bound for the loop count whenever the Python loop
  terminates, and exhausting it yields `none`.
* The `Point` class carries `Optional` coordinates in the source, but every
  point the library constructs has both coordinates present and the point at
  infinity is always the Python value `None`; `Optional[Point]` is embedded as
  `Option Point` with `Point` a pair of integers.
* `hashlib`/`hmac` are external collaborators (spec §6 capability interfaces):
  hash and HMAC functions are parameters of type `List Nat → List Nat` resp.
  `List Nat → List Nat → List Nat` operating on byte lists.
-/

/-! ## Byte-string helpers (`int.from_bytes`, `int.to_bytes`, `int.bit_length`) -/

/-- Big-endian `int.from_bytes`. -/
def bytesToNat (l : List Nat) : Nat :=
  l.foldl (fun acc b => acc * 256 + b) 0

/-- Big-endian encoding of `x` into exactly `len` bytes (the value written by
`x.to_bytes(len, "big")` when `x < 256 ^ len`). -/
def natToBytesBE (x len : Nat) : List Nat :=
  (List.range len).map (fun i => x / 256 ^ (len - 1 - i) % 256)

/-- Fuel-indexed helper for `int.bit_length`. -/
def bitLenAux : Nat → Nat → Nat
  | 0, _ => 0
  | fuel + 1, m => if m = 0 then 0 else bitLenAux fuel (m / 2) + 1

/-- Python `int.bit_length` on a natural number. -/
def bitLen (m : Nat) : Nat :=
  bitLenAux m m

/-- Minimal big-endian encoding `x.to_bytes((x.bit_length() + 7) // 8, "big")`
used by `ECDSASigner.sign` and `generate_keypair` for serialization. -/
def natToBytesMin (x : Nat) : List Nat :=
  natToBytesBE x ((bitLen x + 7) / 8)

/-! ## `cryptlib.core.ecc_math` -/

/-- Loop of `modinv` (extended Euclid).  The Python loop variables `low, high`
stay non-negative, so they are carried as `Nat`; `lm, hm` are carried as `Int`.
Each iteration strictly decreases `low`, so fuel `low + 1` always suffices. -/
def modinvLoop : Nat → Int → Int → Nat → Nat → Option Int
  | 0, _, _, _, _ => none
  | fuel + 1, lm, hm, low, high =>
    if 1 < low then
      let r : Nat := high / low
      let nm : Int := hm - lm * r
      let nw : Nat := high % low
      modinvLoop fuel nm lm nw low
    else some lm

/-- `modinv(a, m)` from `ecc_math.py`: extended Euclidean algorithm.
`none` models the `ValueError` raised for `a == 0`. -/
def modinv (a m : Int) : Option Int :=
  if a = 0 then none
  else
    let low := (a % m).toNat
    match modinvLoop (low + 1) 1 0 low m.toNat with
    | none => none
    | some lm => some (lm % m)

/-- Python `pow(a, e, p)` for a positive modulus. -/
def powMod (a : Int) (e : Nat) (p : Int) : Int :=
  a ^ e % p

/-- The `while pow(z, (p - 1) // 2, p) != p - 1: z += 1` search for a
quadratic non-residue in `modular_sqrt`. -/
def sqrtFindZ : Nat → Int → Int → Option Int
  | 0, _, _ => none
  | fuel + 1, z, p =>
    if powMod z ((p - 1) / 2).toNat p = p - 1 then some z
    else sqrtFindZ fuel (z + 1) p

/-- The `while q % 2 == 0: q //= 2; s += 1` factor-out-twos loop. -/
def oddPart : Nat → Nat → Nat → Option (Nat × Nat)
  | 0, _, _ => none
  | fuel + 1, q, s =>
    if q % 2 = 0 then oddPart fuel (q / 2) (s + 1) else some (q, s)

/-- The inner `while t2i != 1` loop of `modular_sqrt`, returning the exponent
`i`; called with `t2i = pow(t, 2, p)` and `i = 1`. -/
def sqrtInner : Nat → Int → Nat → Int → Option Nat
  | 0, _, _, _ => none
  | fuel + 1, t2i, i, p =>
    if t2i = 1 then some i
    else sqrtInner fuel (powMod t2i 2 p) (i + 1) p

/-- The main Tonelli–Shanks loop of `modular_sqrt` over state `(m, c, t, r)`.
`1 << (m - i - 1)` raises in Python when `m < i + 1`, modelled by `none`. -/
def sqrtLoop : Nat → Int → Nat → Int → Int → Int → Option Int
  | 0, _, _, _, _, _ => none
  | fuel + 1, p, m, c, t, r =>
    if t = 0 then some 0
    else if t = 1 then some r
    else
      match sqrtInner (m + 1) (powMod t 2 p) 1 p with
      | none => none
      | some i =>
        if m < i + 1 then none
        else
          let b := powMod c (2 ^ (m - i - 1)) p
          let c' := b * b % p
          sqrtLoop fuel p i c' (t * c' % p) (r * b % p)

/-- `modular_sqrt(a, p)` from `ecc_math.py` (Tonelli–Shanks).
`none` models the `ValueError` raised on Euler's-criterion failure (or fuel
exhaustion of a loop the Python code would not exit). -/
def modular_sqrt (a p : Int) : Option Int :=
  if a = 0 then some 0
  else if p = 2 then some (a % 2)
  else
    let ls := powMod a ((p - 1) / 2).toNat p
    if ls ≠ 1 then none
    else if p % 4 = 3 then some (powMod a ((p + 1) / 4).toNat p)
    else
      match oddPart ((p - 1).toNat + 1) (p - 1).toNat 0 with
      | none => none
      | some (q, s) =>
        match sqrtFindZ p.toNat 2 p with
        | none => none
        | some z =>
          sqrtLoop (p.toNat + 1) p s (powMod z q p) (powMod a q p)
            (powMod a ((q + 1) / 2) p)

/-- A curve point with both coordinates present.  The point at infinity is
`none : Option Point`, exactly as every call site of the library uses the
Python value `None` (the class also admits `Point(None, None)`, which the
library never constructs). -/
structure Point where
  x : Int
  y : Int
deriving DecidableEq, Repr

/-- Curve parameters bound by `Curve.__init__` (spec §3 `CurveParameters`):
prime modulus `p`, coefficients `a`, `b`, generator `(gx, gy)`, order `n`,
cofactor `h`. -/
structure CurveP where
  p : Nat
  a : Int
  b : Int
  gx : Int
  gy : Int
  n : Nat
  h : Nat := 1
deriving DecidableEq, Repr

/-- `Curve.is_on_curve`: the point at infinity is on the curve by convention,
otherwise test `y² ≡ x³ + a·x + b (mod p)`. -/
def is_on_curve (c : CurveP) (pt : Option Point) : Bool :=
  match pt with
  | none => true
  | some P => (P.y ^ 2 - (P.x ^ 3 + c.a * P.x + c.b)) % (c.p : Int) = 0

/-- `Curve.point_add`.  The outer `Option` models exception propagation out of
`modinv`; the inner `Option Point` is the returned point (`none` = infinity). -/
def point_add (c : CurveP) (p q : Option Point) : Option (Option Point) :=
  match p with
  | none => some q
  | some P =>
    match q with
    | none => some (some P)
    | some Q =>
      let pp : Int := (c.p : Int)
      if P.x = Q.x ∧ (P.y + Q.y) % pp = 0 then some none
      else
        match
          (if P.x = Q.x then
            (modinv (2 * P.y) pp).map (fun iv => (3 * P.x * P.x + c.a) * iv % pp)
          else
            (modinv (Q.x - P.x) pp).map (fun iv => (Q.y - P.y) * iv % pp)) with
        | none => none
        | some m =>
          let xr := (m * m - P.x - Q.x) % pp
          let yr := (m * (P.x - xr) - P.y) % pp
          some (some ⟨xr, yr⟩)

/-- The double-and-add `while k` loop of `Curve.scalar_mult`.  `k` is halved
each iteration, so fuel `k + 1` always suffices. -/
def scalarLoop (c : CurveP) : Nat → Option Point → Option Point → Nat → Option (Option Point)
  | fuel, result, addend, k =>
    if k = 0 then some result
    else
      match fuel with
      | 0 => none
      | fuel' + 1 =>
        match (if k % 2 = 1 then point_add c result addend else some result) with
        | none => none
        | some result' =>
          match point_add c addend addend with
          | none => none
          | some addend' => scalarLoop c fuel' result' addend' (k / 2)

/-- `Curve.scalar_mult(k, p)`.  A missing `p` (Python `None`) defaults to the
generator; the call sites only ever pass non-negative scalars, embedded as
`Nat`.  Returns `some none` (infinity) when `k ≡ 0 (mod n)`. -/
def scalar_mult (c : CurveP) (k : Nat) (pt : Option Point) : Option (Option Point) :=
  let P : Point := pt.getD ⟨c.gx, c.gy⟩
  if k % c.n = 0 then some none
  else scalarLoop c (k + 1) none (some P) k

/-! ## `cryptlib.algorithms.deterministic_nonce` -/

/-- `bits2int(b, qlen)`: interpret `b` big-endian and keep the leftmost `qlen`
bits. -/
def bits2int (b : List Nat) (qlen : Nat) : Nat :=
  let i := bytesToNat b
  let blen := b.length * 8
  if qlen < blen then i >>> (blen - qlen) else i

/-- `int2octets(x, rolen)`: fixed-width big-endian encoding; `none` models the
`OverflowError` of `int.to_bytes` when the value does not fit. -/
def int2octets (x rolen : Nat) : Option (List Nat) :=
  if x < 256 ^ rolen then some (natToBytesBE x rolen) else none

/-- `bits2octets(b, q, qlen)` from `deterministic_nonce.py`: one conditional
subtraction of `q`, then re-encode into `rolen = ⌈qlen/8⌉` bytes. -/
def bits2octets (b : List Nat) (q qlen : Nat) : Option (List Nat) :=
  let z1 := bits2int b qlen
  let z2 := if q ≤ z1 then z1 - q else z1
  int2octets z2 ((qlen + 7) / 8)

/-- The inner `while len(T) < rolen` accumulation loop of `generate_k`.
Returns the grown `T` together with the final `V`. -/
def buildT (hmacF : List Nat → List Nat → List Nat) (K : List Nat) (rolen : Nat) :
    Nat → List Nat → List Nat → Option (List Nat × List Nat)
  | 0, _, _ => none
  | fuel + 1, V, T =>
    if rolen ≤ T.length then some (T, V)
    else
      let V' := hmacF K V
      buildT hmacF K rolen fuel V' (T ++ V')

/-- The outer candidate loop of `generate_k`. -/
def genLoop (hmacF : List Nat → List Nat → List Nat) (q qlen rolen : Nat) :
    Nat → List Nat → List Nat → Option Nat
  | 0, _, _ => none
  | fuel + 1, K, V =>
    match buildT hmacF K rolen (rolen + 1) V [] with
    | none => none
    | some (T, V') =>
      let k := bits2int T qlen
      if 1 ≤ k ∧ k < q then some k
      else
        let K' := hmacF K (V' ++ [0])
        genLoop hmacF q qlen rolen fuel K' (hmacF K' V')

/-- `generate_k(hash_func, q, x, h1)` from `deterministic_nonce.py` (RFC6979).
`hmacF key msg` is the byte digest of `hmac.new(key, msg, hash_func)` and
`hlen` is `hash_func().digest_size`, both supplied by the external hash
collaborator. -/
def generate_k (hmacF : List Nat → List Nat → List Nat) (hlen q x : Nat)
    (h1 : List Nat) : Option Nat :=
  let qlen := bitLen q
  let rolen := (qlen + 7) / 8
  let V := List.replicate hlen 1
  let K := List.replicate hlen 0
  match int2octets x rolen, bits2octets h1 q qlen with
  | some xo, some bo =>
    let bx := xo ++ bo
    let K1 := hmacF K (V ++ 0 :: bx)
    let V1 := hmacF K1 V
    let K2 := hmacF K1 (V1 ++ 1 :: bx)
    let V2 := hmacF K2 V1
    genLoop hmacF q qlen rolen (q + 1) K2 V2
  | _, _ => none

/-! ## `cryptlib.algorithms.ecdsa_signer` -/

/-- The signature serialization of `ECDSASigner.sign` (lines 41–43): minimal
big-endian `r` concatenated with minimal big-endian `s`. -/
def sigSerialize (r s : Nat) : List Nat :=
  natToBytesMin r ++ natToBytesMin s

/-- The signature parsing of `ECDSASigner.verify` (lines 47–49): split the
blob in half and read each half big-endian. -/
def sigParse (signature : List Nat) : Nat × Nat :=
  let r_len := signature.length / 2
  (bytesToNat (signature.take r_len), bytesToNat (signature.drop r_len))

/-- `ECDSASigner.sign(private_key, message)`.  `hashD` is the external hash
capability (`hash_func(message).digest()`), `hmacF`/`hlen` are passed through
to `generate_k`.  `none` models any uncaught exception (including the
`AttributeError` were `R` the point at infinity). -/
def sign (c : CurveP) (hashD : List Nat → List Nat)
    (hmacF : List Nat → List Nat → List Nat) (hlen : Nat)
    (private_key msg : List Nat) : Option (List Nat) :=
  let z : Int := (bytesToNat (hashD msg) : Int)
  let d : Int := (bytesToNat private_key : Int)
  match generate_k hmacF hlen c.n (bytesToNat private_key) (hashD msg) with
  | none => none
  | some k =>
    match scalar_mult c k none with
    | some (some R) =>
      let r := R.x % (c.n : Int)
      match modinv (k : Int) (c.n : Int) with
      | none => none
      | some ki =>
        let s := ki * (z + r * d) % (c.n : Int)
        some (sigSerialize r.toNat s.toNat)
    | _ => none

/-- `ECDSASigner.verify(public_key, message, signature)`.  Returns
`some b` for a boolean outcome and `none` for an uncaught exception. -/
def verify (c : CurveP) (hashD : List Nat → List Nat)
    (public_key msg signature : List Nat) : Option Bool :=
  let rs := sigParse signature
  let z : Int := (bytesToNat (hashD msg) : Int)
  let xb := public_key.take (public_key.length / 2)
  let yb := public_key.drop (public_key.length / 2)
  let pub : Point := ⟨(bytesToNat xb : Int), (bytesToNat yb : Int)⟩
  if is_on_curve c (some pub) = false then some false
  else
    match modinv (rs.2 : Int) (c.n : Int) with
    | none => none
    | some w =>
      let u1 := (z * w) % (c.n : Int)
      let u2 := ((rs.1 : Int) * w) % (c.n : Int)
      match scalar_mult c u1.toNat none, scalar_mult c u2.toNat (some pub) with
      | some P1, some P2 =>
        match point_add c P1 P2 with
        | none => none
        | some none => some false
        | some (some P) => some (decide (P.x % (c.n : Int) = (rs.1 : Int)))
      | _, _ => none

/-! ## `cryptlib.algorithms.ecdh` -/

/-- `ECDH.derive_shared_secret(private_scalar, peer_public_point)`: the `x`
coordinate of `scalar_mult(private_scalar, peer_public_point)`; `none` models
the `ValueError` raised when the result is infinite (or an exception from the
arithmetic). -/
def derive_shared_secret (c : CurveP) (private_scalar : Nat)
    (peer : Option Point) : Option Int :=
  match scalar_mult c private_scalar peer with
  | some (some P) => some P.x
  | _ => none

/-- `ECDH.generate_keypair` with the secure-randomness capability made
explicit: `rnd` stands for the value of `secrets.randbelow(n - 1)`, so the
private scalar is `rnd + 1` and the public point is `scalar_mult` of it. -/
def ecdh_generate_keypair (c : CurveP) (rnd : Nat) :
    Option (Option Point) × Nat :=
  (scalar_mult c (rnd % (c.n - 1) + 1) none, rnd % (c.n - 1) + 1)

/-! ## Curve parameter data

`Modelled from the spec:` the repository imports its curve table from
`cryptlib.core.ecc_parameters` (`get_curve`, `CURVES`), a file not present in
the sources; the spec (§1, §3) states that the table holds the NIST curves
`P-256`/`P-384`/`P-521` in short-Weierstrass form with prime modulus, prime
group order, generator and cofactor 1.  `P256` below is that standard NIST
P-256 parameter set. -/
def P256 : CurveP where
  p := 0xffffffff00000001000000000000000000000000ffffffffffffffffffffffff
  a := 0xffffffff00000001000000000000000000000000fffffffffffffffffffffffc
  b := 0x5ac635d8aa3a93e7b3ebbd55769886bc651d06b0cc53b0f63bce3c3e27d2604b
  gx := 0x6b17d1f2e12c4247f8bce6e563a440f277037d812deb33a0f4a13945d898c296
  gy := 0x4fe342e2fe1a7f9b8ee7eb4a7c0f9e162bce33576b315ececbb6406837bf51f5
  n := 0xffffffff00000000ffffffffffffffffbce6faada7179e84f3b9cac2fc632551
  h := 1

/-- A small test curve `y² = x³ + x + 6` over `F₁₃` whose point group is
cyclic of prime order 13 with generator `(2, 4)`; used to instantiate
hypothesis-bearing theorems on concrete data. -/
def C13 : CurveP where
  p := 13
  a := 1
  b := 6
  gx := 2
  gy := 4
  n := 13
  h := 1

/-! ## Analysis infrastructure

The remaining definitions are not part of the embedding of the source; they
are the vocabulary in which the theorems below are stated: a decidable
"on the curve with coordinates reduced into `[0, p-1]`" predicate, the view of
a parameter set as a Mathlib Weierstrass curve over `ZMod p`, and the relation
between embedded points and Mathlib's nonsingular points. -/

/-- `pt` is the point at infinity, or an affine point whose coordinates are
reduced into `[0, p-1]` and which satisfies `is_on_curve`. -/
def reduced_on_curve (c : CurveP) (pt : Option Point) : Bool :=
  match pt with
  | none => true
  | some P =>
    decide (0 ≤ P.x) && decide (P.x < (c.p : Int)) &&
    decide (0 ≤ P.y) && decide (P.y < (c.p : Int)) && is_on_curve c (some P)

/-- The short-Weierstrass curve `y² = x³ + a·x + b` over `ZMod p` described by
a parameter set, in Mathlib's generality (`a₁ = a₂ = a₃ = 0`). -/
def Wcurve (c : CurveP) : WeierstrassCurve.Affine (ZMod c.p) where
  a₁ := 0
  a₂ := 0
  a₃ := 0
  a₄ := (c.a : ZMod c.p)
  a₆ := (c.b : ZMod c.p)

/-- `PtReps c P Q`: the embedded optional point `P` represents the Mathlib
nonsingular point `Q` on `Wcurve c` — infinity corresponds to `zero`, and a
finite point must have reduced coordinates whose images in `ZMod p` are the
coordinates of `Q`. -/
def PtReps (c : CurveP) : Option Point → (Wcurve c).Point → Prop
  | none, .zero => True
  | some P, @WeierstrassCurve.Affine.Point.some _ _ _ mx my _ =>
      0 ≤ P.x ∧ P.x < (c.p : Int) ∧ 0 ≤ P.y ∧ P.y < (c.p : Int) ∧
      (P.x : ZMod c.p) = mx ∧ (P.y : ZMod c.p) = my
  | _, _ => False

/-! ## Helper lemmas -/

theorem modinvLoop_isSome :
    ∀ (fuel low : Nat), low < fuel → ∀ (lm hm : Int) (high : Nat),
      ∃ v, modinvLoop fuel lm hm low high = some v := by
  intro fuel
  induction fuel with
  | zero => intro low h; omega
  | succ f ih =>
    intro low hlt lm hm high
    by_cases h : 1 < low
    · have hm' : high % low < low := Nat.mod_lt _ (by omega)
      obtain ⟨v, hv⟩ := ih (high % low) (by omega) (hm - lm * (high / low)) lm low
      exact ⟨v, by simp only [modinvLoop, if_pos h]; exact hv⟩
    · exact ⟨lm, by simp only [modinvLoop, if_neg h]⟩

theorem modinv_isSome (a m : Int) (ha : a ≠ 0) : ∃ v, modinv a m = some v := by
  obtain ⟨v, hv⟩ :=
    modinvLoop_isSome ((a % m).toNat + 1) (a % m).toNat (by omega) 1 0 m.toNat
  exact ⟨v % m, by simp only [modinv, if_neg ha, hv]⟩

/-! ## Claim theorems -/

/-- C4 (counterexample): contrary to the claim, `modinv(5, 5)` — where
`5 ≡ 0 (mod 5)` — does not fail: it silently returns `1`. -/
theorem modinv_multiple_of_modulus_no_error : modinv 5 5 = some 1 := by decide

/-- C4 (amended): `modinv(a, m)` errors only on the literal integer `a = 0`;
for any other multiple `a` of `m` (with `m > 1`) it silently returns `1`, and
whenever `1 < gcd(a, m)` any value it returns is not a modular inverse, again
without raising. -/
theorem modinv_zero_multiple_behavior :
    (∀ m : Int, modinv 0 m = none) ∧
    (∀ a m : Int, a ≠ 0 → a % m = 0 → 1 < m → modinv a m = some 1) ∧
    (∀ a m v : Int, 1 < Int.gcd a m → modinv a m = some v → a * v % m ≠ 1) := by
  refine ⟨fun m => by simp [modinv], fun a m ha h0 hm => ?_, fun a m v hg hv hmod => ?_⟩
  · have hlow : (a % m).toNat = 0 := by rw [h0]; rfl
    have h01 : ∀ X : Nat, modinvLoop (0 + 1) 1 0 0 X = some 1 := fun X => by
      simp [modinvLoop]
    simp only [modinv, if_neg ha, hlow, h01]
    rw [Int.emod_eq_of_lt (by norm_num) hm]
  · have hd1 : (Int.gcd a m : Int) ∣ a * v := (Int.gcd_dvd_left).mul_right v
    have hd2 : (Int.gcd a m : Int) ∣ m * (a * v / m) := (Int.gcd_dvd_right).mul_right _
    have hsub : a * v - m * (a * v / m) = 1 := by
      rw [← Int.emod_def]; exact hmod
    have hone : (Int.gcd a m : Int) ∣ 1 := hsub ▸ dvd_sub hd1 hd2
    have hdvd : Int.gcd a m ∣ 1 := by exact_mod_cast hone
    have := Nat.le_of_dvd one_pos hdvd
    omega

/-- C4 (witness for the amended claim at concrete inputs): `modinv 0 7`
raises, `modinv 14 7` silently returns `1`, and the value `3` returned by
`modinv 4 6` (where `gcd(4,6) = 2`) is not an inverse. -/
theorem modinv_zero_multiple_behavior_witness :
    modinv 0 7 = none ∧ modinv 14 7 = some 1 ∧ (4 : Int) * 3 % 6 ≠ 1 :=
  ⟨modinv_zero_multiple_behavior.1 7,
   modinv_zero_multiple_behavior.2.1 14 7 (by decide) (by decide) (by decide),
   modinv_zero_multiple_behavior.2.2 4 6 3 (by decide) (by decide)⟩

/-- C3: signing is deterministic.  In the embedding `sign` and `generate_k`
are pure functions of the private key, the message and the (deterministic)
hash/HMAC capabilities — the source draws no randomness anywhere on the
signing path — so identical inputs yield byte-identical signatures and
identical nonces. -/
theorem sign_generate_k_deterministic :
    (∀ (hmacF : List Nat → List Nat → List Nat) (hlen q x : Nat) (h1 : List Nat),
      generate_k hmacF hlen q x h1 = generate_k hmacF hlen q x h1) ∧
    (∀ (c : CurveP) (hashD : List Nat → List Nat)
      (hmacF : List Nat → List Nat → List Nat) (hlen : Nat) (sk m : List Nat),
      sign c hashD hmacF hlen sk m = sign c hashD hmacF hlen sk m) :=
  ⟨fun _ _ _ _ _ => rfl, fun _ _ _ _ _ _ => rfl⟩

set_option maxRecDepth 4000 in
/-- C2 (mis-split of a genuine signature): the signature emitted by
`ECDSASigner.sign` for `sk = 0xc9af…6721`, `m = b"message-129"` on P-256 has
a 32-byte `r` and a 31-byte `s`; `verify`'s half-split parse does not recover
`(r, s)`, so this genuine signature fails to verify. -/
theorem sig_split_mismatch :
    sigParse (sigSerialize
        0x168c91d0f12aec3cf1722561f0151dea23fb4c857cc974ac3fb69518f75c42c4
        0xde1194da16690090e26f120a68844300259e565940d4bd54409dc0f1bb741) ≠
      (0x168c91d0f12aec3cf1722561f0151dea23fb4c857cc974ac3fb69518f75c42c4,
       0xde1194da16690090e26f120a68844300259e565940d4bd54409dc0f1bb741) := by
  decide

set_option maxRecDepth 8000 in
/-- C7: point-arithmetic identities on P-256: adding infinity is the
identity, a point plus its negation is infinity, `n·G` and more generally
every `k ≡ 0 (mod n)` yields infinity, and `1·G = G`.  (The results carry the
`some …` wrapper of the embedding: no exception is raised.) -/
theorem p256_point_identities :
    point_add P256 none (some ⟨P256.gx, P256.gy⟩) = some (some ⟨P256.gx, P256.gy⟩) ∧
    point_add P256 (some ⟨P256.gx, P256.gy⟩)
        (some ⟨P256.gx, (P256.p : Int) - P256.gy⟩) = some none ∧
    scalar_mult P256 P256.n (some ⟨P256.gx, P256.gy⟩) = some none ∧
    scalar_mult P256 1 (some ⟨P256.gx, P256.gy⟩) = some (some ⟨P256.gx, P256.gy⟩) ∧
    (∀ (k : Nat) (pt : Option Point), k % P256.n = 0 →
      scalar_mult P256 k pt = some none) := by
  refine ⟨rfl, by decide, by decide, by decide, fun k pt hk => ?_⟩
  simp [scalar_mult, hk]

/-- C7 (witness): the `k ≡ 0 (mod n)` clause applied at the concrete scalar
`2n` and an arbitrary point. -/
theorem p256_point_identities_witness :
    scalar_mult P256 (2 * P256.n) (some ⟨1, 1⟩) = some none :=
  p256_point_identities.2.2.2.2 (2 * P256.n) (some ⟨1, 1⟩) (by decide)

/-- Helper for C1: whenever the second half of the signature blob decodes to
`s = 0` and the parsed public point passes the curve test, `verify` reaches
`modinv(0, n)` and the `ValueError` escapes (result `none`), instead of the
boolean `false` the spec demands. -/
theorem verify_s_zero (c : CurveP) (hashD : List Nat → List Nat)
    (pub msg sig : List Nat)
    (hs : bytesToNat (sig.drop (sig.length / 2)) = 0)
    (hcurve : is_on_curve c (some ⟨(bytesToNat (pub.take (pub.length / 2)) : Int),
        (bytesToNat (pub.drop (pub.length / 2)) : Int)⟩) = true) :
    verify c hashD pub msg sig = none := by
  simp only [verify, sigParse, hs, hcurve, Nat.cast_zero]
  simp [modinv]

set_option maxRecDepth 8000 in
/-- C1: `verify` is *not* total over malformed input.  With the P-256 public
key emitted by `generate_keypair` for the generator point and the empty
signature (so the parsed `s` is `0`), `verify` propagates the `ValueError`
raised by `modinv` (embedded result `none`) for every hash function and every
message, rather than returning the boolean `false`. -/
theorem verify_not_total_on_zero_s (hashD : List Nat → List Nat) (msg : List Nat) :
    verify P256 hashD
      (natToBytesMin P256.gx.toNat ++ natToBytesMin P256.gy.toNat) msg [] = none :=
  verify_s_zero P256 hashD _ msg [] (by decide) (by decide)

theorem bitLenAux_lt : ∀ (fuel m : Nat), m ≤ fuel → m < 2 ^ bitLenAux fuel m := by
  intro fuel
  induction fuel with
  | zero => intro m h; interval_cases m; simp [bitLenAux]
  | succ f ih =>
    intro m h
    by_cases hm : m = 0
    · simp [bitLenAux, hm]
    · have h2 : m / 2 ≤ f := by omega
      have := ih (m / 2) h2
      simp only [bitLenAux, if_neg hm, pow_succ]
      omega

theorem bitLenAux_pos : ∀ (fuel m : Nat), 0 < m → m ≤ fuel → 0 < bitLenAux fuel m := by
  intro fuel m h0 h
  cases fuel with
  | zero => omega
  | succ f =>
    have hm : m ≠ 0 := by omega
    simp only [bitLenAux, if_neg hm]
    omega

theorem bitLenAux_le : ∀ (fuel m : Nat), 0 < m → m ≤ fuel →
    2 ^ (bitLenAux fuel m - 1) ≤ m := by
  intro fuel
  induction fuel with
  | zero => intro m h0 h; omega
  | succ f ih =>
    intro m h0 h
    have hm : m ≠ 0 := by omega
    simp only [bitLenAux, if_neg hm, Nat.add_sub_cancel]
    by_cases h1 : m / 2 = 0
    · have : bitLenAux f (m / 2) = 0 := by
        cases f <;> simp [bitLenAux, h1]
      rw [this]
      simpa using h0
    · have h2 : m / 2 ≤ f := by omega
      have hle := ih (m / 2) (by omega) h2
      have hpos := bitLenAux_pos f (m / 2) (by omega) h2
      calc 2 ^ bitLenAux f (m / 2) = 2 * 2 ^ (bitLenAux f (m / 2) - 1) := by
            rw [← pow_succ']
            congr 1
            omega
        _ ≤ 2 * (m / 2) := by omega
        _ ≤ m := by omega

theorem bitLen_lt (m : Nat) : m < 2 ^ bitLen m := bitLenAux_lt m m le_rfl

theorem bitLen_le (m : Nat) (h : 0 < m) : 2 ^ (bitLen m - 1) ≤ m :=
  bitLenAux_le m m h le_rfl

theorem bitLen_pos (m : Nat) (h : 0 < m) : 0 < bitLen m := bitLenAux_pos m m h le_rfl

theorem bytesToNat_foldl_lt : ∀ (l : List Nat) (acc : Nat), (∀ b ∈ l, b < 256) →
    List.foldl (fun acc b => acc * 256 + b) acc l < (acc + 1) * 256 ^ l.length := by
  intro l
  induction l with
  | nil => intro acc _; simp
  | cons b t ih =>
    intro acc hb
    have hb256 : b < 256 := hb b (by simp)
    have ht : ∀ x ∈ t, x < 256 := fun x hx => hb x (by simp [hx])
    have h1 := ih (acc * 256 + b) ht
    have h2 : (acc * 256 + b + 1) * 256 ^ t.length ≤ (acc + 1) * 256 ^ (t.length + 1) := by
      rw [pow_succ]
      calc (acc * 256 + b + 1) * 256 ^ t.length
          ≤ ((acc + 1) * 256) * 256 ^ t.length :=
            Nat.mul_le_mul_right _ (by omega)
        _ = (acc + 1) * (256 ^ t.length * 256) := by ring
    simp only [List.foldl_cons, List.length_cons]
    calc List.foldl (fun acc b => acc * 256 + b) (acc * 256 + b) t
        < (acc * 256 + b + 1) * 256 ^ t.length := h1
      _ ≤ (acc + 1) * 256 ^ (t.length + 1) := h2

theorem bytesToNat_lt (l : List Nat) (hb : ∀ b ∈ l, b < 256) :
    bytesToNat l < 256 ^ l.length := by
  have := bytesToNat_foldl_lt l 0 hb
  simpa [bytesToNat] using this

theorem bits2int_lt (b : List Nat) (qlen : Nat) (hb : ∀ x ∈ b, x < 256) :
    bits2int b qlen < 2 ^ qlen := by
  have hbn : bytesToNat b < 2 ^ (8 * b.length) := by
    have := bytesToNat_lt b hb
    calc bytesToNat b < 256 ^ b.length := this
      _ = 2 ^ (8 * b.length) := by rw [pow_mul]; norm_num
  unfold bits2int
  by_cases h : qlen < b.length * 8
  · rw [if_pos h]
    rw [Nat.shiftRight_eq_div_pow]
    rw [Nat.div_lt_iff_lt_mul (Nat.pos_pow_of_pos _ (by norm_num))]
    calc bytesToNat b < 2 ^ (8 * b.length) := hbn
      _ = 2 ^ qlen * 2 ^ (b.length * 8 - qlen) := by
          rw [← pow_add]
          congr 1
          omega
  · rw [if_neg h]
    calc bytesToNat b < 2 ^ (8 * b.length) := hbn
      _ ≤ 2 ^ qlen := Nat.pow_le_pow_right (by norm_num) (by omega)

theorem natToBytesBE_length (x len : Nat) : (natToBytesBE x len).length = len := by
  simp [natToBytesBE]

/-- C5: `bits2octets(h1, q, bitlen(q))` is exactly the `rolen`-byte big-endian
encoding of `bits2int(h1, qlen) mod q` — the single conditional subtraction
realizes full reduction mod `q` because `bits2int` yields a value below
`2^qlen ≤ 2q`, and the reduced value always fits in `rolen = ⌈qlen/8⌉`
bytes. -/
theorem bits2octets_is_reduced_encoding (h1 : List Nat) (q : Nat) (hq : 0 < q)
    (hb : ∀ b ∈ h1, b < 256) :
    bits2octets h1 q (bitLen q) =
      some (natToBytesBE (bits2int h1 (bitLen q) % q) ((bitLen q + 7) / 8)) ∧
    (natToBytesBE (bits2int h1 (bitLen q) % q) ((bitLen q + 7) / 8)).length =
      (bitLen q + 7) / 8 := by
  have hq2 : q < 2 ^ bitLen q := bitLen_lt q
  have hql : 2 ^ (bitLen q - 1) ≤ q := bitLen_le q hq
  have hqpos : 0 < bitLen q := bitLen_pos q hq
  have h2q : 2 ^ bitLen q ≤ 2 * q := by
    calc 2 ^ bitLen q = 2 * 2 ^ (bitLen q - 1) := by
          rw [← pow_succ']
          congr 1
          omega
      _ ≤ 2 * q := by omega
  have hz1 : bits2int h1 (bitLen q) < 2 ^ bitLen q := bits2int_lt h1 (bitLen q) hb
  have hz2 : (if q ≤ bits2int h1 (bitLen q) then bits2int h1 (bitLen q) - q
      else bits2int h1 (bitLen q)) = bits2int h1 (bitLen q) % q := by
    by_cases h : q ≤ bits2int h1 (bitLen q)
    · rw [if_pos h, Nat.mod_eq_sub_mod h, Nat.mod_eq_of_lt (by omega)]
    · rw [if_neg h, Nat.mod_eq_of_lt (by omega)]
  have hexp : 2 ^ bitLen q ≤ 256 ^ ((bitLen q + 7) / 8) := by
    calc 2 ^ bitLen q ≤ 2 ^ (8 * ((bitLen q + 7) / 8)) :=
          Nat.pow_le_pow_right (by norm_num) (by omega)
      _ = 256 ^ ((bitLen q + 7) / 8) := by rw [pow_mul]; norm_num
  have hfit : bits2int h1 (bitLen q) % q < 256 ^ ((bitLen q + 7) / 8) := by
    have : bits2int h1 (bitLen q) % q < q := Nat.mod_lt _ hq
    omega
  constructor
  · simp only [bits2octets, hz2, int2octets, if_pos hfit]
  · exact natToBytesBE_length _ _

/-- C5 (witness): the reduction property at `q = 13`, `h1 = [0xff, 0xff]`. -/
theorem bits2octets_is_reduced_encoding_witness :
    bits2octets [255, 255] 13 (bitLen 13) =
      some (natToBytesBE (bits2int [255, 255] (bitLen 13) % 13) ((bitLen 13 + 7) / 8)) ∧
    (natToBytesBE (bits2int [255, 255] (bitLen 13) % 13) ((bitLen 13 + 7) / 8)).length =
      (bitLen 13 + 7) / 8 :=
  bits2octets_is_reduced_encoding [255, 255] 13 (by decide) (by decide)

theorem modinvLoop_correct (a m : Int) :
    ∀ (fuel low high : Nat) (lm hm : Int), low < fuel → 1 < high →
      Nat.gcd low high = 1 →
      lm * a ≡ (low : Int) [ZMOD m] →
      hm * a ≡ (high : Int) [ZMOD m] →
      ∃ t, modinvLoop fuel lm hm low high = some t ∧ t * a ≡ 1 [ZMOD m] := by
  intro fuel
  induction fuel with
  | zero => intro low high lm hm h; omega
  | succ f ih =>
    intro low high lm hm hlt hhigh hgcd hl hh
    by_cases h : 1 < low
    · have hnw : high % low < low := Nat.mod_lt _ (by omega)
      have hcast : ((high % low : Nat) : Int) =
          (high : Int) - (low : Int) * ((high / low : Nat) : Int) := by
        rw [Int.natCast_mod, Int.natCast_div, Int.emod_def]
      have hinv : (hm - lm * ((high / low : Nat) : Int)) * a ≡
          ((high % low : Nat) : Int) [ZMOD m] := by
        rw [hcast]
        have step := hh.sub (hl.mul_left ((high / low : Nat) : Int))
        calc (hm - lm * ((high / low : Nat) : Int)) * a
            = hm * a - ((high / low : Nat) : Int) * (lm * a) := by ring
          _ ≡ (high : Int) - ((high / low : Nat) : Int) * (low : Int) [ZMOD m] := step
          _ = (high : Int) - (low : Int) * ((high / low : Nat) : Int) := by ring
      have hgcd' : Nat.gcd (high % low) low = 1 := by
        rw [← Nat.gcd_rec]
        exact hgcd
      obtain ⟨t, ht, htinv⟩ :=
        ih (high % low) low (hm - lm * ((high / low : Nat) : Int)) lm (by omega) h hgcd' hinv hl
      refine ⟨t, ?_, htinv⟩
      simp only [modinvLoop, if_pos h]
      exact ht
    · interval_cases low
      · rw [Nat.gcd_zero_left] at hgcd
        omega
      · exact ⟨lm, by simp only [modinvLoop, if_neg h], by simpa using hl⟩

theorem modinv_correct (a m : Int) (hm : 1 < m) (hg : Int.gcd a m = 1) :
    ∃ v, modinv a m = some v ∧ 0 ≤ v ∧ v < m ∧ a * v % m = 1 := by
  have hmpos : (0 : Int) < m := by omega
  have ha : a ≠ 0 := by
    rintro rfl
    simp [Int.gcd] at hg
    omega
  have hmodnn : 0 ≤ a % m := Int.emod_nonneg a (by omega)
  have hlow_cast : (((a % m).toNat : Nat) : Int) = a % m := Int.toNat_of_nonneg hmodnn
  have hmcast : ((m.toNat : Nat) : Int) = m := Int.toNat_of_nonneg (by omega)
  have hgcdnat : Nat.gcd (a % m).toNat m.toNat = 1 := by
    set d := Nat.gcd (a % m).toNat m.toNat with hd
    have hd1 : (d : Int) ∣ a % m :=
      hlow_cast ▸ Int.natCast_dvd_natCast.mpr (Nat.gcd_dvd_left _ _)
    have hd2 : (d : Int) ∣ m :=
      hmcast ▸ Int.natCast_dvd_natCast.mpr (Nat.gcd_dvd_right _ _)
    have hda : (d : Int) ∣ a := by
      have hsplit : a = m * (a / m) + a % m := (Int.ediv_add_emod a m).symm
      rw [hsplit]
      exact dvd_add (hd2.mul_right _) hd1
    have hdg : (d : Int) ∣ (Int.gcd a m : Int) := Int.dvd_gcd hda hd2
    rw [hg] at hdg
    have : d ∣ 1 := by exact_mod_cast hdg
    exact Nat.dvd_one.mp this
  have hinv1 : (1 : Int) * a ≡ (((a % m).toNat : Nat) : Int) [ZMOD m] := by
    rw [hlow_cast, one_mul]
    exact (Int.emod_emod_of_dvd a dvd_rfl).symm
  have hinv2 : (0 : Int) * a ≡ ((m.toNat : Nat) : Int) [ZMOD m] := by
    rw [hmcast, zero_mul]
    show (0 : Int) % m = m % m
    simp [Int.emod_self]
  obtain ⟨t, ht, htinv⟩ :=
    modinvLoop_correct a m ((a % m).toNat + 1) (a % m).toNat m.toNat 1 0
      (by omega) (by omega) hgcdnat hinv1 hinv2
  refine ⟨t % m, ?_, Int.emod_nonneg t (by omega), Int.emod_lt_of_pos t hmpos, ?_⟩
  · simp only [modinv, if_neg ha, ht]
  · have hteq : t % m ≡ t [ZMOD m] := Int.emod_emod_of_dvd t dvd_rfl
    have : a * (t % m) ≡ 1 [ZMOD m] := by
      calc a * (t % m) ≡ a * t [ZMOD m] := hteq.mul_left a
        _ = t * a := by ring
        _ ≡ 1 [ZMOD m] := htinv
    have h1 : a * (t % m) % m = 1 % m := this
    rwa [Int.emod_eq_of_lt (by norm_num) hm] at h1

theorem intCast_emod (P : Nat) (x : Int) :
    ((x % (P : Int) : Int) : ZMod P) = (x : ZMod P) := by
  rw [ZMod.intCast_eq_intCast_iff']
  exact Int.emod_emod_of_dvd x dvd_rfl

theorem powMod_cast (P : Nat) (a : Int) (e : Nat) :
    ((powMod a e (P : Int) : Int) : ZMod P) = (a : ZMod P) ^ e := by
  unfold powMod
  rw [intCast_emod]
  push_cast
  rfl

theorem oddPart_odd : ∀ (fuel q s q' s' : Nat),
    oddPart fuel q s = some (q', s') → q' % 2 = 1 := by
  intro fuel
  induction fuel with
  | zero => simp [oddPart]
  | succ f ih =>
    intro q s q' s' h
    by_cases hq : q % 2 = 0
    · exact ih (q / 2) (s + 1) q' s' (by simpa [oddPart, hq] using h)
    · simp only [oddPart, if_neg hq, Option.some_inj, Prod.mk.injEq] at h
      omega

theorem sqrtFindZ_spec : ∀ (fuel : Nat) (z p z' : Int),
    sqrtFindZ fuel z p = some z' →
    powMod z' ((p - 1) / 2).toNat p = p - 1 := by
  intro fuel
  induction fuel with
  | zero => simp [sqrtFindZ]
  | succ f ih =>
    intro z p z' h
    by_cases hz : powMod z ((p - 1) / 2).toNat p = p - 1
    · simp only [sqrtFindZ, if_pos hz, Option.some_inj] at h
      rwa [← h]
    · exact ih (z + 1) p z' (by simpa [sqrtFindZ, hz] using h)

theorem sqrtLoop_correct (P : Nat) [Fact (Nat.Prime P)] (a : Int) :
    ∀ (fuel m : Nat) (c t r res : Int),
      (c : ZMod P) ≠ 0 → (t : ZMod P) ≠ 0 →
      (r : ZMod P) ^ 2 = (a : ZMod P) * (t : ZMod P) →
      sqrtLoop fuel (P : Int) m c t r = some res →
      (res : ZMod P) ^ 2 = (a : ZMod P) := by
  intro fuel
  induction fuel with
  | zero => simp [sqrtLoop]
  | succ f ih =>
    intro m c t r res hc ht hr hloop
    by_cases ht0 : t = 0
    · exact absurd (by simp [ht0]) ht
    by_cases ht1 : t = 1
    · simp only [sqrtLoop, if_neg ht0, if_pos ht1, Option.some_inj] at hloop
      subst hloop
      rw [hr, ht1]
      simp
    simp only [sqrtLoop, if_neg ht0, if_neg ht1] at hloop
    cases hinner : sqrtInner (m + 1) (powMod t 2 (P : Int)) 1 (P : Int) with
    | none => rw [hinner] at hloop; exact absurd hloop (by simp)
    | some i =>
      rw [hinner] at hloop
      dsimp only at hloop
      by_cases hmi : m < i + 1
      · rw [if_pos hmi] at hloop; exact absurd hloop (by simp)
      rw [if_neg hmi] at hloop
      set b := powMod c (2 ^ (m - i - 1)) (P : Int) with hb
      have hbc : (b : ZMod P) = (c : ZMod P) ^ (2 ^ (m - i - 1)) := powMod_cast P c _
      have hbne : (b : ZMod P) ≠ 0 := by
        rw [hbc]
        exact pow_ne_zero _ hc
      have hc' : ((b * b % (P : Int) : Int) : ZMod P) ≠ 0 := by
        rw [intCast_emod]
        push_cast
        exact mul_ne_zero hbne hbne
      have ht' : ((t * (b * b % (P : Int)) % (P : Int) : Int) : ZMod P) ≠ 0 := by
        rw [intCast_emod]
        push_cast
        exact mul_ne_zero ht (mul_ne_zero hbne hbne)
      have hr' : ((r * b % (P : Int) : Int) : ZMod P) ^ 2 =
          (a : ZMod P) * ((t * (b * b % (P : Int)) % (P : Int) : Int) : ZMod P) := by
        rw [intCast_emod, intCast_emod]
        push_cast
        calc ((r : ZMod P) * (b : ZMod P)) ^ 2
            = (r : ZMod P) ^ 2 * ((b : ZMod P) * (b : ZMod P)) := by ring
          _ = (a : ZMod P) * ((t : ZMod P) * ((b : ZMod P) * (b : ZMod P))) := by
              rw [hr]; ring
      exact ih i (b * b % (P : Int)) (t * (b * b % (P : Int)) % (P : Int))
        (r * b % (P : Int)) res hc' ht' hr' hloop

theorem modular_sqrt_correct (a : Int) (P : Nat) (res : Int) (hp : Nat.Prime P)
    (hres : modular_sqrt a (P : Int) = some res) :
    res ^ 2 % (P : Int) = a % (P : Int) := by
  haveI := Fact.mk hp
  suffices hcast : ((res : ZMod P)) ^ 2 = (a : ZMod P) by
    exact (ZMod.intCast_eq_intCast_iff' (res ^ 2) a P).mp (by push_cast; exact hcast)
  unfold modular_sqrt at hres
  by_cases ha : a = 0
  · rw [if_pos ha] at hres
    have : res = 0 := (Option.some_inj.mp hres).symm
    subst this
    simp [ha]
  rw [if_neg ha] at hres
  by_cases hP2 : (P : Int) = 2
  · rw [if_pos hP2] at hres
    have hP2' : P = 2 := by exact_mod_cast hP2
    subst hP2'
    have hres' : res = a % 2 := (Option.some_inj.mp hres).symm
    subst hres'
    have h2 : ((a % (2 : Int) : Int) : ZMod 2) = (a : ZMod 2) := intCast_emod 2 a
    rw [h2]
    have hsq : ∀ x : ZMod 2, x ^ 2 = x := by
      intro x
      fin_cases x <;> rfl
    exact hsq _
  rw [if_neg hP2] at hres
  set e := (((P : Int) - 1) / 2).toNat with he
  by_cases hls : powMod a e (P : Int) ≠ 1
  · rw [if_pos hls] at hres
    exact absurd hres (by simp)
  push_neg at hls
  rw [if_neg (not_not.mpr hls)] at hres
  have hP3 : 3 ≤ P := by
    have h2 := hp.two_le
    have hne : P ≠ 2 := fun h => hP2 (by rw [h]; norm_num)
    omega
  have heq : e = (P - 1) / 2 := by
    rw [he, show ((P : Int) - 1) = (((P - 1 : Nat)) : Int) by omega,
      show (2 : Int) = ((2 : Nat) : Int) by norm_num, ← Int.natCast_div]
    exact Int.toNat_natCast _
  have he1 : 1 ≤ e := by omega
  have hA : (a : ZMod P) ^ e = 1 := by
    have hc := congrArg (fun x : Int => (x : ZMod P)) hls
    simpa [powMod_cast] using hc
  have hAne : (a : ZMod P) ≠ 0 := by
    intro h0
    rw [h0, zero_pow (by omega)] at hA
    exact zero_ne_one hA
  by_cases hp4 : (P : Int) % 4 = 3
  · rw [if_pos hp4] at hres
    have hres' : res = powMod a (((P : Int) + 1) / 4).toNat (P : Int) :=
      (Option.some_inj.mp hres).symm
    set j := (((P : Int) + 1) / 4).toNat with hj
    have hjeq : j = (P + 1) / 4 := by
      rw [hj, show ((P : Int) + 1) = (((P + 1 : Nat)) : Int) by omega,
        show (4 : Int) = ((4 : Nat) : Int) by norm_num, ← Int.natCast_div]
      exact Int.toNat_natCast _
    have hP4 : P % 4 = 3 := by omega
    have h2j : j * 2 = e + 1 := by omega
    rw [hres', powMod_cast, ← pow_mul, h2j, pow_succ, hA, one_mul]
  · rw [if_neg hp4] at hres
    cases hodd : oddPart (((P : Int) - 1).toNat + 1) ((P : Int) - 1).toNat 0 with
    | none => rw [hodd] at hres; exact absurd hres (by simp)
    | some qs =>
      obtain ⟨q, s⟩ := qs
      rw [hodd] at hres
      dsimp only at hres
      cases hz : sqrtFindZ (P : Int).toNat 2 (P : Int) with
      | none => rw [hz] at hres; exact absurd hres (by simp)
      | some z =>
        rw [hz] at hres
        dsimp only at hres
        have hqodd : q % 2 = 1 := oddPart_odd _ _ _ _ _ hodd
        have hzspec := sqrtFindZ_spec _ _ _ _ hz
        have hZpow : (z : ZMod P) ^ e = -1 := by
          have hc := congrArg (fun x : Int => (x : ZMod P)) hzspec
          simp only [powMod_cast] at hc
          rw [← he] at hc
          rw [hc]
          push_cast
          simp [ZMod.natCast_self]
        have hZne : (z : ZMod P) ≠ 0 := by
          intro h0
          rw [h0, zero_pow (by omega)] at hZpow
          have h10 : (1 : ZMod P) = 0 := by linear_combination hZpow
          exact one_ne_zero h10
        have hcne : ((powMod z q (P : Int) : Int) : ZMod P) ≠ 0 := by
          rw [powMod_cast]
          exact pow_ne_zero _ hZne
        have htne : ((powMod a q (P : Int) : Int) : ZMod P) ≠ 0 := by
          rw [powMod_cast]
          exact pow_ne_zero _ hAne
        have hrinv : ((powMod a ((q + 1) / 2) (P : Int) : Int) : ZMod P) ^ 2 =
            (a : ZMod P) * ((powMod a q (P : Int) : Int) : ZMod P) := by
          rw [powMod_cast, powMod_cast, ← pow_mul,
            show (q + 1) / 2 * 2 = q + 1 by omega, pow_succ]
          ring
        exact sqrtLoop_correct P a _ s _ _ _ res hcne htne hrinv hres

/-- C6: `modinv` is correct whenever an inverse exists (`gcd(a, m) = 1`,
`m > 1`): it succeeds, returns a value in `[0, m-1]`, and
`(a * modinv(a, m)) mod m = 1`.  And `modular_sqrt` is correct for every
prime `p`: whenever it returns a root `r` (which covers both the
`p ≡ 3 (mod 4)` fast path and the general Tonelli–Shanks path),
`r² ≡ a (mod p)`. -/
theorem modinv_modular_sqrt_correct :
    (∀ a m : Int, Int.gcd a m = 1 → 1 < m →
      ∃ v, modinv a m = some v ∧ 0 ≤ v ∧ v < m ∧ a * v % m = 1) ∧
    (∀ (a : Int) (P : Nat) (res : Int), Nat.Prime P →
      modular_sqrt a (P : Int) = some res →
      res ^ 2 % (P : Int) = a % (P : Int)) :=
  ⟨fun a m hg hm => modinv_correct a m hm hg,
   fun a P res hp h => modular_sqrt_correct a P res hp h⟩

/-- C6 (witness): `modinv 3 7 = some 5` is a genuine inverse; the fast path
(`p = 7 ≡ 3 (mod 4)`, `modular_sqrt 2 7 = some 4`) and the Tonelli–Shanks
path (`p = 13 ≡ 1 (mod 4)`, `modular_sqrt 10 13 = some 7`) both square back
to the input. -/
theorem modinv_modular_sqrt_correct_witness :
    (∃ v, modinv 3 7 = some v ∧ 0 ≤ v ∧ v < 7 ∧ 3 * v % 7 = 1) ∧
    (4 : Int) ^ 2 % ((7 : Nat) : Int) = (2 : Int) % ((7 : Nat) : Int) ∧
    (7 : Int) ^ 2 % ((13 : Nat) : Int) = (10 : Int) % ((13 : Nat) : Int) :=
  ⟨modinv_modular_sqrt_correct.1 3 7 (by decide) (by decide),
   modinv_modular_sqrt_correct.2 2 7 4 (by norm_num) (by decide),
   modinv_modular_sqrt_correct.2 10 13 7 (by norm_num) (by decide)⟩

theorem castInj (P : Nat) (u v : Int) (hu : 0 ≤ u) (hu2 : u < P) (hv : 0 ≤ v)
    (hv2 : v < P) (h : (u : ZMod P) = (v : ZMod P)) : u = v := by
  rw [ZMod.intCast_eq_intCast_iff'] at h
  rwa [Int.emod_eq_of_lt hu hu2, Int.emod_eq_of_lt hv hv2] at h

theorem intCast_eq_zero_of_emod (P : Nat) (x : Int) (h : x % (P : Int) = 0) :
    (x : ZMod P) = 0 := by
  rw [← intCast_emod P x, h]
  simp

theorem emod_eq_zero_of_intCast (P : Nat) (x : Int) (h : (x : ZMod P) = 0) :
    x % (P : Int) = 0 := by
  rw [ZMod.intCast_zmod_eq_zero_iff_dvd] at h
  exact Int.emod_eq_zero_of_dvd h

theorem modinv_zmod (P : Nat) [Fact (Nat.Prime P)] (d : Int)
    (hd : (d : ZMod P) ≠ 0) :
    ∃ v, modinv d (P : Int) = some v ∧ 0 ≤ v ∧ v < P ∧
      (v : ZMod P) = (d : ZMod P)⁻¹ := by
  have hp : Nat.Prime P := Fact.out
  have hnd : ¬ (P : Int) ∣ d := fun hdvd =>
    hd ((ZMod.intCast_zmod_eq_zero_iff_dvd d P).mpr hdvd)
  have hgcd : Int.gcd d (P : Int) = 1 := by
    have hnd' : ¬ P ∣ d.natAbs := fun h => hnd (Int.natCast_dvd.mpr h)
    have : Nat.Coprime P d.natAbs := hp.coprime_iff_not_dvd.mpr hnd'
    have h2 : Nat.gcd d.natAbs P = 1 := Nat.Coprime.gcd_eq_one this.symm
    simpa [Int.gcd] using h2
  obtain ⟨v, hv, hv0, hv1, hv2⟩ :=
    modinv_correct d (P : Int) (by exact_mod_cast hp.one_lt) hgcd
  refine ⟨v, hv, hv0, by exact_mod_cast hv1, ?_⟩
  have hcast : ((d * v % (P : Int) : Int) : ZMod P) = ((1 : Int) : ZMod P) := by
    rw [hv2]
  rw [intCast_emod] at hcast
  push_cast at hcast
  exact eq_inv_of_mul_eq_one_right hcast

theorem is_on_curve_iff_equation (c : CurveP) (P : Point) :
    is_on_curve c (some P) = true ↔
      (Wcurve c).Equation (P.x : ZMod c.p) (P.y : ZMod c.p) := by
  rw [WeierstrassCurve.Affine.equation_iff]
  simp only [is_on_curve, decide_eq_true_eq, Wcurve]
  constructor
  · intro h
    have := intCast_eq_zero_of_emod c.p _ h
    push_cast at this
    linear_combination this
  · intro h
    apply emod_eq_zero_of_intCast
    push_cast
    linear_combination h

theorem point_add_eq_neg (c : CurveP) (P Q : Point) (hx : P.x = Q.x)
    (hy : (P.y + Q.y) % (c.p : Int) = 0) :
    point_add c (some P) (some Q) = some none := by
  simp [point_add, hx, hy]

theorem point_add_eq_double (c : CurveP) (P Q : Point) (hx : P.x = Q.x)
    (hy : ¬(P.y + Q.y) % (c.p : Int) = 0) (iv m xr yr : Int)
    (hiv : modinv (2 * P.y) (c.p : Int) = some iv)
    (hm : m = (3 * P.x * P.x + c.a) * iv % (c.p : Int))
    (hxr : xr = (m * m - P.x - Q.x) % (c.p : Int))
    (hyr : yr = (m * (P.x - xr) - P.y) % (c.p : Int)) :
    point_add c (some P) (some Q) = some (some ⟨xr, yr⟩) := by
  subst hm hxr hyr
  simp only [point_add]
  rw [if_neg (fun hc => hy hc.2), if_pos hx, hiv]
  rfl

theorem point_add_eq_chord (c : CurveP) (P Q : Point) (hx : ¬P.x = Q.x)
    (iv m xr yr : Int)
    (hiv : modinv (Q.x - P.x) (c.p : Int) = some iv)
    (hm : m = (Q.y - P.y) * iv % (c.p : Int))
    (hxr : xr = (m * m - P.x - Q.x) % (c.p : Int))
    (hyr : yr = (m * (P.x - xr) - P.y) % (c.p : Int)) :
    point_add c (some P) (some Q) = some (some ⟨xr, yr⟩) := by
  subst hm hxr hyr
  simp only [point_add]
  rw [if_neg (fun hc => hx hc.1), if_neg hx, hiv]
  rfl

theorem negY_eq (c : CurveP) (u v : ZMod c.p) : (Wcurve c).negY u v = -v := by
  simp [WeierstrassCurve.Affine.negY, Wcurve]

theorem point_add_finite_cases (c : CurveP) [Fact (Nat.Prime c.p)] (P Q : Point)
    (hPx : 0 ≤ P.x) (hPx2 : P.x < (c.p : Int)) (hPy : 0 ≤ P.y) (hPy2 : P.y < (c.p : Int))
    (hQx : 0 ≤ Q.x) (hQx2 : Q.x < (c.p : Int)) (hQy : 0 ≤ Q.y) (hQy2 : Q.y < (c.p : Int))
    (hPe : (Wcurve c).Equation (P.x : ZMod c.p) (P.y : ZMod c.p))
    (hQe : (Wcurve c).Equation (Q.x : ZMod c.p) (Q.y : ZMod c.p)) :
    (point_add c (some P) (some Q) = some none ∧
      (P.x : ZMod c.p) = (Q.x : ZMod c.p) ∧
      (P.y : ZMod c.p) = (Wcurve c).negY (Q.x : ZMod c.p) (Q.y : ZMod c.p)) ∨
    (∃ R : Point, point_add c (some P) (some Q) = some (some R) ∧
      0 ≤ R.x ∧ R.x < (c.p : Int) ∧ 0 ≤ R.y ∧ R.y < (c.p : Int) ∧
      ((P.x : ZMod c.p) = (Q.x : ZMod c.p) →
        (P.y : ZMod c.p) ≠ (Wcurve c).negY (Q.x : ZMod c.p) (Q.y : ZMod c.p)) ∧
      (R.x : ZMod c.p) = (Wcurve c).addX (P.x : ZMod c.p) (Q.x : ZMod c.p)
        ((Wcurve c).slope (P.x : ZMod c.p) (Q.x : ZMod c.p) (P.y : ZMod c.p) (Q.y : ZMod c.p)) ∧
      (R.y : ZMod c.p) = (Wcurve c).addY (P.x : ZMod c.p) (Q.x : ZMod c.p) (P.y : ZMod c.p)
        ((Wcurve c).slope (P.x : ZMod c.p) (Q.x : ZMod c.p) (P.y : ZMod c.p) (Q.y : ZMod c.p))) := by
  have hprime : Nat.Prime c.p := Fact.out
  have hppos : (0 : Int) < (c.p : Int) := by exact_mod_cast hprime.pos
  by_cases hcond : P.x = Q.x ∧ (P.y + Q.y) % (c.p : Int) = 0
  · left
    refine ⟨point_add_eq_neg c P Q hcond.1 hcond.2, by rw [hcond.1], ?_⟩
    rw [negY_eq]
    have hsum : ((P.y + Q.y : Int) : ZMod c.p) = 0 := intCast_eq_zero_of_emod _ _ hcond.2
    push_cast at hsum
    exact eq_neg_of_add_eq_zero_left hsum
  · right
    push_neg at hcond
    by_cases hx : P.x = Q.x
    · -- tangent (doubling) branch
      have hy : ¬(P.y + Q.y) % (c.p : Int) = 0 := hcond hx
      have hxc : ((P.x : Int) : ZMod c.p) = ((Q.x : Int) : ZMod c.p) := by rw [hx]
      have hsum : ((P.y : ZMod c.p)) + (Q.y : ZMod c.p) ≠ 0 := by
        intro h0
        apply hy
        apply emod_eq_zero_of_intCast
        push_cast
        exact h0
      have hyQ : ((P.y : Int) : ZMod c.p) = ((Q.y : Int) : ZMod c.p) := by
        rcases WeierstrassCurve.Affine.Y_eq_of_X_eq hPe hQe hxc with h | h
        · exact h
        · exfalso
          apply hsum
          rw [negY_eq] at h
          rw [h]
          ring
      have hyneg : ((P.y : Int) : ZMod c.p) ≠
          (Wcurve c).negY (Q.x : ZMod c.p) (Q.y : ZMod c.p) := by
        rw [negY_eq]
        intro h
        apply hsum
        rw [h]
        ring
      have h2y : ((2 * P.y : Int) : ZMod c.p) ≠ 0 := by
        push_cast
        intro h0
        apply hsum
        rw [← hyQ]
        linear_combination h0
      obtain ⟨iv, hiv, _, _, hivc⟩ := modinv_zmod c.p (2 * P.y) h2y
      set mInt := (3 * P.x * P.x + c.a) * iv % (c.p : Int) with hmdef
      set xrInt := (mInt * mInt - P.x - Q.x) % (c.p : Int) with hxrdef
      set yrInt := (mInt * (P.x - xrInt) - P.y) % (c.p : Int) with hyrdef
      have happ := point_add_eq_double c P Q hx hy iv mInt xrInt yrInt hiv hmdef hxrdef hyrdef
      have hslope : (Wcurve c).slope (P.x : ZMod c.p) (Q.x : ZMod c.p)
          (P.y : ZMod c.p) (Q.y : ZMod c.p) =
          (3 * (P.x : ZMod c.p) ^ 2 + (c.a : ZMod c.p)) * ((2 * P.y : Int) : ZMod c.p)⁻¹ := by
        rw [WeierstrassCurve.Affine.slope_of_Y_ne hxc hyneg]
        rw [div_eq_mul_inv]
        have ha1 : (Wcurve c).a₁ = 0 := rfl
        have ha2 : (Wcurve c).a₂ = 0 := rfl
        have ha4 : (Wcurve c).a₄ = (c.a : ZMod c.p) := rfl
        rw [ha1, ha2, ha4, negY_eq]
        push_cast
        ring_nf
      have hmc : (mInt : ZMod c.p) = (Wcurve c).slope (P.x : ZMod c.p) (Q.x : ZMod c.p)
          (P.y : ZMod c.p) (Q.y : ZMod c.p) := by
        rw [hmdef, intCast_emod]
        push_cast
        rw [hivc, hslope]
        push_cast
        ring
      have hxrc : (xrInt : ZMod c.p) = (Wcurve c).addX (P.x : ZMod c.p) (Q.x : ZMod c.p)
          ((Wcurve c).slope (P.x : ZMod c.p) (Q.x : ZMod c.p) (P.y : ZMod c.p) (Q.y : ZMod c.p)) := by
        rw [hxrdef, intCast_emod]
        push_cast
        rw [hmc]
        simp only [WeierstrassCurve.Affine.addX, Wcurve]
        ring
      have hyrc : (yrInt : ZMod c.p) = (Wcurve c).addY (P.x : ZMod c.p) (Q.x : ZMod c.p)
          (P.y : ZMod c.p)
          ((Wcurve c).slope (P.x : ZMod c.p) (Q.x : ZMod c.p) (P.y : ZMod c.p) (Q.y : ZMod c.p)) := by
        rw [hyrdef, intCast_emod]
        push_cast
        rw [hmc, hxrc]
        simp only [WeierstrassCurve.Affine.addY, WeierstrassCurve.Affine.negAddY,
          WeierstrassCurve.Affine.negY, Wcurve]
        ring
      exact ⟨⟨xrInt, yrInt⟩, happ, Int.emod_nonneg _ (by omega), Int.emod_lt_of_pos _ hppos,
        Int.emod_nonneg _ (by omega), Int.emod_lt_of_pos _ hppos,
        fun _ => hyneg, hxrc, hyrc⟩
    · -- chord branch
      have hxc : ((P.x : Int) : ZMod c.p) ≠ ((Q.x : Int) : ZMod c.p) := by
        intro h
        exact hx (castInj c.p P.x Q.x hPx (by exact_mod_cast hPx2) hQx (by exact_mod_cast hQx2) h)
      have hd : ((Q.x - P.x : Int) : ZMod c.p) ≠ 0 := by
        push_cast
        intro h0
        apply hxc
        linear_combination -h0
      obtain ⟨iv, hiv, _, _, hivc⟩ := modinv_zmod c.p (Q.x - P.x) hd
      set mInt := (Q.y - P.y) * iv % (c.p : Int) with hmdef
      set xrInt := (mInt * mInt - P.x - Q.x) % (c.p : Int) with hxrdef
      set yrInt := (mInt * (P.x - xrInt) - P.y) % (c.p : Int) with hyrdef
      have happ := point_add_eq_chord c P Q hx iv mInt xrInt yrInt hiv hmdef hxrdef hyrdef
      have hslope : (Wcurve c).slope (P.x : ZMod c.p) (Q.x : ZMod c.p)
          (P.y : ZMod c.p) (Q.y : ZMod c.p) =
          ((Q.y : ZMod c.p) - (P.y : ZMod c.p)) * ((Q.x - P.x : Int) : ZMod c.p)⁻¹ := by
        rw [WeierstrassCurve.Affine.slope_of_X_ne hxc]
        push_cast
        rw [div_eq_mul_inv]
        rw [show ((P.y : ZMod c.p) - (Q.y : ZMod c.p)) = -((Q.y : ZMod c.p) - (P.y : ZMod c.p)) by ring,
          show ((P.x : ZMod c.p) - (Q.x : ZMod c.p)) = -((Q.x : ZMod c.p) - (P.x : ZMod c.p)) by ring,
          inv_neg, mul_neg, neg_mul, neg_neg]
      have hmc : (mInt : ZMod c.p) = (Wcurve c).slope (P.x : ZMod c.p) (Q.x : ZMod c.p)
          (P.y : ZMod c.p) (Q.y : ZMod c.p) := by
        rw [hmdef, intCast_emod]
        push_cast
        rw [hivc, hslope]
      have hxrc : (xrInt : ZMod c.p) = (Wcurve c).addX (P.x : ZMod c.p) (Q.x : ZMod c.p)
          ((Wcurve c).slope (P.x : ZMod c.p) (Q.x : ZMod c.p) (P.y : ZMod c.p) (Q.y : ZMod c.p)) := by
        rw [hxrdef, intCast_emod]
        push_cast
        rw [hmc]
        simp only [WeierstrassCurve.Affine.addX, Wcurve]
        ring
      have hyrc : (yrInt : ZMod c.p) = (Wcurve c).addY (P.x : ZMod c.p) (Q.x : ZMod c.p)
          (P.y : ZMod c.p)
          ((Wcurve c).slope (P.x : ZMod c.p) (Q.x : ZMod c.p) (P.y : ZMod c.p) (Q.y : ZMod c.p)) := by
        rw [hyrdef, intCast_emod]
        push_cast
        rw [hmc, hxrc]
        simp only [WeierstrassCurve.Affine.addY, WeierstrassCurve.Affine.negAddY,
          WeierstrassCurve.Affine.negY, Wcurve]
        ring
      exact ⟨⟨xrInt, yrInt⟩, happ, Int.emod_nonneg _ (by omega), Int.emod_lt_of_pos _ hppos,
        Int.emod_nonneg _ (by omega), Int.emod_lt_of_pos _ hppos,
        fun h => absurd h hxc, hxrc, hyrc⟩

theorem roc_some_iff (c : CurveP) (P : Point) :
    reduced_on_curve c (some P) = true ↔
      0 ≤ P.x ∧ P.x < (c.p : Int) ∧ 0 ≤ P.y ∧ P.y < (c.p : Int) ∧
        is_on_curve c (some P) = true := by
  simp [reduced_on_curve, and_assoc]

theorem point_add_closed (c : CurveP) [Fact (Nat.Prime c.p)] (P Q : Option Point)
    (hP : reduced_on_curve c P = true) (hQ : reduced_on_curve c Q = true) :
    ∃ R, point_add c P Q = some R ∧ reduced_on_curve c R = true := by
  match P, Q with
  | none, q => exact ⟨q, rfl, hQ⟩
  | some P', none => exact ⟨some P', rfl, hP⟩
  | some P', some Q' =>
    rw [roc_some_iff] at hP hQ
    obtain ⟨hPx, hPx2, hPy, hPy2, hPcu⟩ := hP
    obtain ⟨hQx, hQx2, hQy, hQy2, hQcu⟩ := hQ
    have hPe := (is_on_curve_iff_equation c P').mp hPcu
    have hQe := (is_on_curve_iff_equation c Q').mp hQcu
    rcases point_add_finite_cases c P' Q' hPx hPx2 hPy hPy2 hQx hQx2 hQy hQy2 hPe hQe with
      ⟨hadd, _, _⟩ | ⟨R, hadd, hb1, hb2, hb3, hb4, hxy, hxc, hyc⟩
    · exact ⟨none, hadd, rfl⟩
    · refine ⟨some R, hadd, ?_⟩
      rw [roc_some_iff]
      refine ⟨hb1, hb2, hb3, hb4, ?_⟩
      rw [is_on_curve_iff_equation, hxc, hyc]
      exact WeierstrassCurve.Affine.equation_add hPe hQe hxy

theorem scalarLoop_closed (c : CurveP) [Fact (Nat.Prime c.p)] :
    ∀ (fuel k : Nat) (res add : Option Point), k ≤ fuel →
      reduced_on_curve c res = true → reduced_on_curve c add = true →
      ∃ out, scalarLoop c fuel res add k = some out ∧ reduced_on_curve c out = true := by
  intro fuel
  induction fuel with
  | zero =>
    intro k res add hk hres hadd
    have hk0 : k = 0 := by omega
    subst hk0
    exact ⟨res, by simp [scalarLoop], hres⟩
  | succ f ih =>
    intro k res add hk hres hadd
    by_cases hk0 : k = 0
    · subst hk0
      exact ⟨res, by simp [scalarLoop], hres⟩
    · obtain ⟨res2, hres2, hroc2⟩ :
          ∃ r2, (if k % 2 = 1 then point_add c res add else some res) = some r2 ∧
            reduced_on_curve c r2 = true := by
        by_cases hpar : k % 2 = 1
        · obtain ⟨r2, h1, h2⟩ := point_add_closed c res add hres hadd
          exact ⟨r2, by rw [if_pos hpar]; exact h1, h2⟩
        · exact ⟨res, by rw [if_neg hpar], hres⟩
      obtain ⟨add2, hadd2, hroc3⟩ := point_add_closed c add add hadd hadd
      obtain ⟨out, hout, hocr⟩ := ih (k / 2) res2 add2 (by omega) hroc2 hroc3
      refine ⟨out, ?_, hocr⟩
      simp only [scalarLoop, if_neg hk0]
      rw [hres2]
      dsimp only
      rw [hadd2]
      dsimp only
      exact hout

/-- C9: group closure.  On a prime modulus, adding two reduced on-curve
points (infinity included) never raises and yields a reduced on-curve point,
and consequently `scalar_mult` from a reduced on-curve point always yields a
reduced on-curve point. -/
theorem point_add_scalar_mult_closed (c : CurveP) (hp : Nat.Prime c.p) :
    (∀ P Q : Option Point, reduced_on_curve c P = true → reduced_on_curve c Q = true →
      ∃ R, point_add c P Q = some R ∧ reduced_on_curve c R = true) ∧
    (∀ (k : Nat) (pt : Point), reduced_on_curve c (some pt) = true →
      ∃ S, scalar_mult c k (some pt) = some S ∧ reduced_on_curve c S = true) := by
  haveI := Fact.mk hp
  refine ⟨fun P Q hP hQ => point_add_closed c P Q hP hQ, fun k pt hpt => ?_⟩
  unfold scalar_mult
  by_cases hk : k % c.n = 0
  · exact ⟨none, by simp [hk], rfl⟩
  · simp only [if_neg hk, Option.getD_some]
    exact scalarLoop_closed c (k + 1) k none (some pt) (by omega) rfl hpt

/-- C9 (witness): closure applied on the concrete curve `C13`: `G + 2G` and
`5 · G` are defined and land on the curve. -/
theorem point_add_scalar_mult_closed_witness :
    (∃ R, point_add C13 (some ⟨2, 4⟩) (some ⟨9, 9⟩) = some R ∧
      reduced_on_curve C13 R = true) ∧
    (∃ S, scalar_mult C13 5 (some ⟨2, 4⟩) = some S ∧
      reduced_on_curve C13 S = true) :=
  ⟨(point_add_scalar_mult_closed C13 (by norm_num [C13])).1 (some ⟨2, 4⟩) (some ⟨9, 9⟩)
      (by decide) (by decide),
   (point_add_scalar_mult_closed C13 (by norm_num [C13])).2 5 ⟨2, 4⟩ (by decide)⟩

/-- C10: point addition is commutative on reduced on-curve points (infinity
included): `point_add(P, Q) = point_add(Q, P)`, exceptions, infinity results
and coordinates all agreeing. -/
theorem point_add_comm (c : CurveP) (hp : Nat.Prime c.p) (P Q : Option Point)
    (hP : reduced_on_curve c P = true) (hQ : reduced_on_curve c Q = true) :
    point_add c P Q = point_add c Q P := by
  haveI := Fact.mk hp
  match P, Q with
  | none, none => rfl
  | none, some q => rfl
  | some p', none => rfl
  | some P', some Q' =>
    rw [roc_some_iff] at hP hQ
    obtain ⟨hPx, hPx2, hPy, hPy2, hPcu⟩ := hP
    obtain ⟨hQx, hQx2, hQy, hQy2, hQcu⟩ := hQ
    have hPe := (is_on_curve_iff_equation c P').mp hPcu
    have hQe := (is_on_curve_iff_equation c Q').mp hQcu
    rcases point_add_finite_cases c P' Q' hPx hPx2 hPy hPy2 hQx hQx2 hQy hQy2 hPe hQe with
      ⟨h1, hx1, hy1⟩ | ⟨R1, h1, hb11, hb12, hb13, hb14, hxy1, hx1, hy1⟩ <;>
    rcases point_add_finite_cases c Q' P' hQx hQx2 hQy hQy2 hPx hPx2 hPy hPy2 hQe hPe with
      ⟨h2, hx2, hy2⟩ | ⟨R2, h2, hb21, hb22, hb23, hb24, hxy2, hx2, hy2⟩
    · rw [h1, h2]
    · exfalso
      apply hxy2 hx1.symm
      rw [negY_eq] at hy1 ⊢
      linear_combination hy1
    · exfalso
      apply hxy1 hx2.symm
      rw [negY_eq] at hy2 ⊢
      linear_combination hy2
    · -- both finite results: coordinates agree
      have hss : (Wcurve c).slope (P'.x : ZMod c.p) (Q'.x : ZMod c.p)
            (P'.y : ZMod c.p) (Q'.y : ZMod c.p) =
          (Wcurve c).slope (Q'.x : ZMod c.p) (P'.x : ZMod c.p)
            (Q'.y : ZMod c.p) (P'.y : ZMod c.p) := by
        by_cases hxe : ((P'.x : Int) : ZMod c.p) = ((Q'.x : Int) : ZMod c.p)
        · have hye : ((P'.y : Int) : ZMod c.p) = ((Q'.y : Int) : ZMod c.p) :=
            WeierstrassCurve.Affine.Y_eq_of_Y_ne hPe hQe hxe (hxy1 hxe)
          rw [hxe, hye]
        · rw [WeierstrassCurve.Affine.slope_of_X_ne hxe,
            WeierstrassCurve.Affine.slope_of_X_ne (Ne.symm hxe),
            div_eq_div_iff (sub_ne_zero.mpr hxe) (sub_ne_zero.mpr (Ne.symm hxe))]
          ring
      have haddX : (Wcurve c).addX (P'.x : ZMod c.p) (Q'.x : ZMod c.p)
            ((Wcurve c).slope (P'.x : ZMod c.p) (Q'.x : ZMod c.p)
              (P'.y : ZMod c.p) (Q'.y : ZMod c.p)) =
          (Wcurve c).addX (Q'.x : ZMod c.p) (P'.x : ZMod c.p)
            ((Wcurve c).slope (Q'.x : ZMod c.p) (P'.x : ZMod c.p)
              (Q'.y : ZMod c.p) (P'.y : ZMod c.p)) := by
        rw [← hss]
        simp only [WeierstrassCurve.Affine.addX]
        ring
      have haddY : (Wcurve c).addY (P'.x : ZMod c.p) (Q'.x : ZMod c.p) (P'.y : ZMod c.p)
            ((Wcurve c).slope (P'.x : ZMod c.p) (Q'.x : ZMod c.p)
              (P'.y : ZMod c.p) (Q'.y : ZMod c.p)) =
          (Wcurve c).addY (Q'.x : ZMod c.p) (P'.x : ZMod c.p) (Q'.y : ZMod c.p)
            ((Wcurve c).slope (Q'.x : ZMod c.p) (P'.x : ZMod c.p)
              (Q'.y : ZMod c.p) (P'.y : ZMod c.p)) := by
        rw [← hss]
        set L := (Wcurve c).slope (P'.x : ZMod c.p) (Q'.x : ZMod c.p)
          (P'.y : ZMod c.p) (Q'.y : ZMod c.p) with hL
        have hkey : L * ((P'.x : ZMod c.p) - (Q'.x : ZMod c.p)) =
            (P'.y : ZMod c.p) - (Q'.y : ZMod c.p) := by
          by_cases hxe : ((P'.x : Int) : ZMod c.p) = ((Q'.x : Int) : ZMod c.p)
          · have hye : ((P'.y : Int) : ZMod c.p) = ((Q'.y : Int) : ZMod c.p) :=
              WeierstrassCurve.Affine.Y_eq_of_Y_ne hPe hQe hxe (hxy1 hxe)
            rw [hxe, hye]
            ring
          · rw [hL, WeierstrassCurve.Affine.slope_of_X_ne hxe,
              div_mul_cancel₀ _ (sub_ne_zero.mpr hxe)]
        simp only [WeierstrassCurve.Affine.addY, WeierstrassCurve.Affine.negAddY,
          WeierstrassCurve.Affine.negY, WeierstrassCurve.Affine.addX, Wcurve]
        linear_combination hkey
      have hRx : R1.x = R2.x :=
        castInj c.p R1.x R2.x hb11 (by exact_mod_cast hb12) hb21 (by exact_mod_cast hb22)
          (by rw [hx1, hx2, haddX])
      have hRy : R1.y = R2.y :=
        castInj c.p R1.y R2.y hb13 (by exact_mod_cast hb14) hb23 (by exact_mod_cast hb24)
          (by rw [hy1, hy2, haddY])
      have hR : R1 = R2 := by
        cases R1
        cases R2
        simp_all
      rw [h1, h2, hR]

/-- C10 (witness): commutativity at two concrete on-curve points of `C13`. -/
theorem point_add_comm_witness :
    point_add C13 (some ⟨2, 4⟩) (some ⟨9, 9⟩) = point_add C13 (some ⟨9, 9⟩) (some ⟨2, 4⟩) :=
  point_add_comm C13 (by norm_num [C13]) (some ⟨2, 4⟩) (some ⟨9, 9⟩) (by decide) (by decide)

set_option maxHeartbeats 1000000 in
theorem nonsingular_of_curve (c : CurveP) [Fact (Nat.Prime c.p)] (hp3 : 3 < c.p)
    (hD : (4 * c.a ^ 3 + 27 * c.b ^ 2) % (c.p : Int) ≠ 0) (x y : Int)
    (he : (Wcurve c).Equation (x : ZMod c.p) (y : ZMod c.p)) :
    (Wcurve c).Nonsingular (x : ZMod c.p) (y : ZMod c.p) := by
  refine (Wcurve c).nonsingular_of_Δ_ne_zero he ?_
  have hval : (Wcurve c).Δ =
      -16 * (4 * (c.a : ZMod c.p) ^ 3 + 27 * (c.b : ZMod c.p) ^ 2) := by
    simp only [WeierstrassCurve.Δ, WeierstrassCurve.b₂, WeierstrassCurve.b₄,
      WeierstrassCurve.b₆, WeierstrassCurve.b₈, Wcurve]
    ring
  rw [hval]
  apply mul_ne_zero
  · intro h
    have h16 : ((16 : Nat) : ZMod c.p) = 0 := by
      push_cast at h ⊢
      linear_combination -h
    rw [ZMod.natCast_zmod_eq_zero_iff_dvd] at h16
    have hp : Nat.Prime c.p := Fact.out
    have h2 : c.p ∣ 2 ^ 4 := by norm_num at h16 ⊢; exact h16
    have h3 := hp.dvd_of_dvd_pow h2
    have h4 := (Nat.prime_dvd_prime_iff_eq hp Nat.prime_two).mp h3
    omega
  · intro h
    apply hD
    apply emod_eq_zero_of_intCast
    push_cast
    linear_combination h

theorem ptReps_unique (c : CurveP) (A B : Option Point) (T : (Wcurve c).Point)
    (hA : PtReps c A T) (hB : PtReps c B T) : A = B := by
  cases A with
  | none =>
    cases B with
    | none => rfl
    | some Bv =>
      rcases T with _ | @⟨tx, ty, hns⟩
      · exact absurd hB (by simp [PtReps])
      · exact absurd hA (by simp [PtReps])
  | some Av =>
    cases B with
    | none =>
      rcases T with _ | @⟨tx, ty, hns⟩
      · exact absurd hA (by simp [PtReps])
      · exact absurd hB (by simp [PtReps])
    | some Bv =>
      rcases T with _ | @⟨tx, ty, hns⟩
      · exact absurd hA (by simp [PtReps])
      · obtain ⟨hA1, hA2, hA3, hA4, hA5, hA6⟩ := hA
        obtain ⟨hB1, hB2, hB3, hB4, hB5, hB6⟩ := hB
        have hx : Av.x = Bv.x :=
          castInj c.p _ _ hA1 (by exact_mod_cast hA2) hB1 (by exact_mod_cast hB2)
            (by rw [hA5, hB5])
        have hy : Av.y = Bv.y :=
          castInj c.p _ _ hA3 (by exact_mod_cast hA4) hB3 (by exact_mod_cast hB4)
            (by rw [hA6, hB6])
        cases Av
        cases Bv
        simp_all

theorem point_add_reps (c : CurveP) [Fact (Nat.Prime c.p)]
    (P Q : Option Point) (P' Q' : (Wcurve c).Point)
    (hP : PtReps c P P') (hQ : PtReps c Q Q') :
    ∃ R, point_add c P Q = some R ∧ PtReps c R (P' + Q') := by
  cases P with
  | none =>
    rcases P' with _ | @⟨mx1, my1, hns1⟩
    · refine ⟨Q, rfl, ?_⟩
      have h0 : (WeierstrassCurve.Affine.Point.zero + Q' : (Wcurve c).Point) = Q' :=
        zero_add Q'
      rw [h0]
      exact hQ
    · exact absurd hP (by simp [PtReps])
  | some Pv =>
    rcases P' with _ | @⟨mx1, my1, hns1⟩
    · exact absurd hP (by simp [PtReps])
    cases Q with
    | none =>
      rcases Q' with _ | @⟨mx2, my2, hns2⟩
      · refine ⟨some Pv, rfl, ?_⟩
        have h0 : (WeierstrassCurve.Affine.Point.some hns1 +
            WeierstrassCurve.Affine.Point.zero : (Wcurve c).Point) =
            WeierstrassCurve.Affine.Point.some hns1 := add_zero _
        rw [h0]
        exact hP
      · exact absurd hQ (by simp [PtReps])
    | some Qv =>
      rcases Q' with _ | @⟨mx2, my2, hns2⟩
      · exact absurd hQ (by simp [PtReps])
      obtain ⟨hP1, hP2, hP3, hP4, hP5, hP6⟩ := hP
      obtain ⟨hQ1, hQ2, hQ3, hQ4, hQ5, hQ6⟩ := hQ
      have hPe : (Wcurve c).Equation (Pv.x : ZMod c.p) (Pv.y : ZMod c.p) := by
        rw [hP5, hP6]; exact hns1.1
      have hQe : (Wcurve c).Equation (Qv.x : ZMod c.p) (Qv.y : ZMod c.p) := by
        rw [hQ5, hQ6]; exact hns2.1
      rcases point_add_finite_cases c Pv Qv hP1 hP2 hP3 hP4 hQ1 hQ2 hQ3 hQ4 hPe hQe with
        ⟨hadd, hx, hy⟩ | ⟨R, hadd, hb1, hb2, hb3, hb4, hxy, hxc, hyc⟩
      · have hmx : mx1 = mx2 := by rw [← hP5, ← hQ5]; exact hx
        have hmy : my1 = (Wcurve c).negY mx2 my2 := by
          rw [← hP6, ← hQ5, ← hQ6]
          exact hy
        rw [WeierstrassCurve.Affine.Point.add_of_Y_eq hmx hmy]
        exact ⟨none, hadd, trivial⟩
      · have hxy' : mx1 = mx2 → my1 ≠ (Wcurve c).negY mx2 my2 := by
          intro hmx
          rw [← hP6, ← hQ5, ← hQ6]
          exact hxy (by rw [hP5, hQ5]; exact hmx)
        rw [WeierstrassCurve.Affine.Point.add_of_imp hxy']
        refine ⟨some R, hadd, hb1, hb2, hb3, hb4, ?_, ?_⟩
        · rw [hxc, hP5, hP6, hQ5, hQ6]
        · rw [hyc, hP5, hP6, hQ5, hQ6]

theorem scalarLoop_reps (c : CurveP) [Fact (Nat.Prime c.p)] :
    ∀ (fuel k : Nat) (res add : Option Point) (res' add' : (Wcurve c).Point),
      k ≤ fuel → PtReps c res res' → PtReps c add add' →
      ∃ out, scalarLoop c fuel res add k = some out ∧
        PtReps c out (res' + k • add') := by
  intro fuel
  induction fuel with
  | zero =>
    intro k res add res' add' hk hres hadd
    have hk0 : k = 0 := by omega
    subst hk0
    refine ⟨res, by simp [scalarLoop], ?_⟩
    rw [zero_nsmul, add_zero]
    exact hres
  | succ f ih =>
    intro k res add res' add' hk hres hadd
    by_cases hk0 : k = 0
    · subst hk0
      refine ⟨res, by simp [scalarLoop], ?_⟩
      rw [zero_nsmul, add_zero]
      exact hres
    · obtain ⟨res2, hres2, hreps2⟩ :
          ∃ r2, (if k % 2 = 1 then point_add c res add else some res) = some r2 ∧
            PtReps c r2 (res' + (k % 2) • add') := by
        by_cases hpar : k % 2 = 1
        · obtain ⟨r2, h1, h2⟩ := point_add_reps c res add res' add' hres hadd
          refine ⟨r2, by rw [if_pos hpar]; exact h1, ?_⟩
          rw [hpar, one_nsmul]
          exact h2
        · have hpar0 : k % 2 = 0 := by omega
          refine ⟨res, by rw [if_neg hpar], ?_⟩
          rw [hpar0, zero_nsmul, add_zero]
          exact hres
      obtain ⟨add2, hadd2, hreps3⟩ := point_add_reps c add add add' add' hadd hadd
      obtain ⟨out, hout, hrepso⟩ :=
        ih (k / 2) res2 add2 (res' + (k % 2) • add') (add' + add') (by omega) hreps2 hreps3
      refine ⟨out, ?_, ?_⟩
      · simp only [scalarLoop, if_neg hk0]
        rw [hres2]
        dsimp only
        rw [hadd2]
        dsimp only
        exact hout
      · have hsm : (k % 2) • add' + (k / 2) • (add' + add') = k • add' := by
          rw [show add' + add' = 2 • add' from (two_nsmul add').symm, ← mul_nsmul,
            ← add_nsmul]
          congr 1
          omega
        rw [add_assoc, hsm] at hrepso
        exact hrepso

theorem scalar_mult_reps (c : CurveP) [Fact (Nat.Prime c.p)] (k : Nat)
    (hk : ¬k % c.n = 0) (pt : Option Point) (T : (Wcurve c).Point)
    (hreps : PtReps c (some (pt.getD ⟨c.gx, c.gy⟩)) T) :
    ∃ out, scalar_mult c k pt = some out ∧ PtReps c out (k • T) := by
  obtain ⟨out, hout, hrepso⟩ :=
    scalarLoop_reps c (k + 1) k none (some (pt.getD ⟨c.gx, c.gy⟩)) 0 T (by omega)
      trivial hreps
  refine ⟨out, ?_, ?_⟩
  · unfold scalar_mult
    rw [if_neg hk]
    exact hout
  · rw [zero_add] at hrepso
    exact hrepso

/-- C8: ECDH agreement.  For any curve parameters satisfying the spec's
data-model invariants (prime modulus `> 3`, nonsingular short-Weierstrass
equation, reduced on-curve generator), any two private scalars `a, b` in
`[1, n-1]`, and public points `A`, `B` computed by `scalar_mult` from the
generator as in `ECDH.generate_keypair` (finite, as they always are when `n`
is the order of the generator),
`derive_shared_secret(a, B) = derive_shared_secret(b, A)`. -/
theorem ecdh_agreement (c : CurveP) (hp : Nat.Prime c.p) (hp3 : 3 < c.p)
    (hD : (4 * c.a ^ 3 + 27 * c.b ^ 2) % (c.p : Int) ≠ 0)
    (hG : reduced_on_curve c (some ⟨c.gx, c.gy⟩) = true)
    (a b : Nat) (ha0 : 0 < a) (han : a < c.n) (hb0 : 0 < b) (hbn : b < c.n)
    (A B : Option Point)
    (hA : scalar_mult c a none = some A) (hB : scalar_mult c b none = some B)
    (hAfin : A ≠ none) (hBfin : B ≠ none) :
    derive_shared_secret c a B = derive_shared_secret c b A := by
  haveI := Fact.mk hp
  rw [roc_some_iff] at hG
  obtain ⟨hg1, hg2, hg3, hg4, hgcu⟩ := hG
  have hGe := (is_on_curve_iff_equation c ⟨c.gx, c.gy⟩).mp hgcu
  have hGns : (Wcurve c).Nonsingular ((c.gx : Int) : ZMod c.p) ((c.gy : Int) : ZMod c.p) :=
    nonsingular_of_curve c hp3 hD c.gx c.gy hGe
  set GM : (Wcurve c).Point := WeierstrassCurve.Affine.Point.some hGns with hGM
  have hGreps : PtReps c (some ⟨c.gx, c.gy⟩) GM := ⟨hg1, hg2, hg3, hg4, rfl, rfl⟩
  have hka : ¬a % c.n = 0 := by rw [Nat.mod_eq_of_lt han]; omega
  have hkb : ¬b % c.n = 0 := by rw [Nat.mod_eq_of_lt hbn]; omega
  obtain ⟨outA, houtA, hrepsA⟩ := scalar_mult_reps c a hka none GM hGreps
  obtain ⟨outB, houtB, hrepsB⟩ := scalar_mult_reps c b hkb none GM hGreps
  rw [hA] at houtA
  rw [hB] at houtB
  have hAeq : A = outA := Option.some_inj.mp houtA
  have hBeq : B = outB := Option.some_inj.mp houtB
  subst hAeq
  subst hBeq
  obtain ⟨ptB, rfl⟩ : ∃ pt, B = some pt := by
    cases B with
    | none => exact absurd rfl hBfin
    | some pt => exact ⟨pt, rfl⟩
  obtain ⟨ptA, rfl⟩ : ∃ pt, A = some pt := by
    cases A with
    | none => exact absurd rfl hAfin
    | some pt => exact ⟨pt, rfl⟩
  obtain ⟨out1, hout1, hreps1⟩ := scalar_mult_reps c a hka (some ptB) (b • GM) hrepsB
  obtain ⟨out2, hout2, hreps2⟩ := scalar_mult_reps c b hkb (some ptA) (a • GM) hrepsA
  have hcomm : a • b • GM = b • a • GM := by
    rw [← mul_nsmul, ← mul_nsmul, Nat.mul_comm]
  rw [hcomm] at hreps1
  have hout12 : out1 = out2 := ptReps_unique c out1 out2 _ hreps1 hreps2
  unfold derive_shared_secret
  rw [hout1, hout2, hout12]

set_option maxHeartbeats 1000000 in
/-- C8 (witness): agreement on the concrete curve `C13` for the private
scalars `2` and `3`: both parties derive the same shared secret. -/
theorem ecdh_agreement_witness :
    derive_shared_secret C13 2 (some ⟨11, 10⟩) = derive_shared_secret C13 3 (some ⟨9, 9⟩) :=
  ecdh_agreement C13 (by norm_num [C13]) (by norm_num [C13]) (by decide) (by decide)
    2 3 (by decide) (by decide) (by decide) (by decide)
    (some ⟨9, 9⟩) (some ⟨11, 10⟩) (by decide) (by decide) (by decide) (by decide)
